import Mathlib

/-!
Verification of the buffer commitment engine of the arbitrum repository
(source: src/packages/arb-validator/rollup/confirmThread.go, the embedded
C++ buffer hashing core, lines 76-159).

The cryptographic primitives (the 1-ary digest of a raw 32-byte block, the
2-ary combine of two digests, both keccak256 in the real system) are not part
of the shown source.  They are modelled as the free constructors of an
inductive type `Digest`, the standard idealization of a collision-free hash.
`hash(0)` — the digest of the 256-bit value 0, i.e. of a 32-byte all-zero
block — is `D0`.

All recursive functions of the source are embedded with an explicit fuel
argument returning `Option`: the C++ functions can fail to terminate on
precondition-violating sizes (e.g. `zero_hash(0)` recurses forever), so no
total function on `Nat` can satisfy their defining equations.  Fuel is
decremented once per call frame; `none` means the recursion did not finish
within the given depth.
-/

/-- Modelled from the spec (§4.1, §6): the 256-bit digest domain.  The
primitive hash bodies (`hash(0)`, `hash(a,b)`, `ethash::keccak256`) are not in
the shown source; they are modelled as the free constructors of an inductive
type, i.e. as an ideal collision-free hash.  `prim bs` is the primitive digest
of the raw byte block `bs`; `comb a b` is the 2-ary combine of two digests. -/
inductive Digest where
  | prim : List Nat → Digest
  | comb : Digest → Digest → Digest
deriving DecidableEq, Repr

/-- `hash(0)`: the digest of the 256-bit value 0, equal to the primitive
digest of a 32-byte all-zero block (spec §4.1 base case). -/
def D0 : Digest := Digest.prim (List.replicate 32 0)

/-- The canonical all-zero digest at region exponent `k` (region size
`32 * 2^k` bytes): `zhash 0 = D0`, `zhash (k+1) = comb (zhash k) (zhash k)`.
Proof-side characterization of the value `zero_hash` computes. -/
def zhash : Nat → Digest
  | 0 => D0
  | k + 1 => Digest.comb (zhash k) (zhash k)

/-- The `Packed` struct of the source: `{hash, size, packed}` where `size` is
`baseSize` and `packed` is the doubling count. -/
structure Packed where
  hash : Digest
  size : Nat
  packed : Nat
deriving DecidableEq, Repr

/-- Source lines 84-86: `normal(hash, sz) = Packed{hash, sz, 0}`. -/
def normal (h : Digest) (sz : Nat) : Packed := Packed.mk h sz 0

/-- Source lines 88-90: `pack(p) = Packed{p.hash, p.size, p.packed+1}`. -/
def pack (p : Packed) : Packed := Packed.mk p.hash p.size (p.packed + 1)

/-- Source lines 92-94: `is_zero_hash(p) = (p.hash == hash(0))`. -/
def is_zero_hash (p : Packed) : Bool := p.hash == D0

/-- Source lines 76-82:
`zero_hash(sz) = if sz == 32 then hash(0) else hash(h1, h1)` with
`h1 = zero_hash(sz/2)`.  Fueled; `none` = recursion did not terminate. -/
def zero_hashF : Nat → Nat → Option Digest
  | 0, _ => none
  | fuel + 1, sz =>
    if sz = 32 then some D0
    else
      match zero_hashF fuel (sz / 2) with
      | none => none
      | some h1 => some (Digest.comb h1 h1)

/-- The loop body of `unpack` (source lines 96-104): repeat `packed` times
`res := hash(res, zero_hash(sz)); sz := sz*2`. -/
def unpack_loopF (fuel : Nat) : Nat → Digest → Nat → Option Digest
  | 0, res, _ => some res
  | n + 1, res, sz =>
    match zero_hashF fuel sz with
    | none => none
    | some z => unpack_loopF fuel n (Digest.comb res z) (sz * 2)

/-- Source lines 96-104: `unpack(p)` expands a Packed value to its full
256-bit digest by combining with zero hashes of doubling sizes. -/
def unpackF (fuel : Nat) (p : Packed) : Option Digest :=
  unpack_loopF fuel p.packed p.hash p.size

/-- Source lines 106-111:
`zero_packed(sz) = if sz == 32 then normal(zero_hash(32), 32)
                   else pack(zero_packed(sz/2))`.
The C++ `int sz` parameter is widened to `Nat` here; this version agrees with
the source only while `sz` is `int`-representable.  `zero_packed32` below
models the 32-bit `int` faithfully — the two provably agree on every
representable size, and only the `int`-faithful one is used for the
termination analysis, where the width matters. -/
def zero_packedF : Nat → Nat → Option Packed
  | 0, _ => none
  | fuel + 1, sz =>
    if sz = 32 then
      match zero_hashF fuel 32 with
      | none => none
      | some h => some (normal h 32)
    else
      match zero_packedF fuel (sz / 2) with
      | none => none
      | some p => some (pack p)

/-- Source lines 113-125: `hash_buf(buf, offset, sz)`.  The base case hashes
the raw 32-byte block `buf[offset..offset+32)`; otherwise the two halves are
hashed, and if the right half is all-zero the left is compressed (`pack`),
else the expanded halves are combined. -/
def hash_bufF : Nat → List Nat → Nat → Nat → Option Packed
  | 0, _, _, _ => none
  | fuel + 1, buf, offset, sz =>
    if sz = 32 then
      some (normal (Digest.prim ((buf.drop offset).take 32)) 32)
    else
      match hash_bufF fuel buf offset (sz / 2) with
      | none => none
      | some h1 =>
        match hash_bufF fuel buf (offset + sz / 2) (sz / 2) with
        | none => none
        | some h2 =>
          if is_zero_hash h2 then some (pack h1)
          else
            match unpackF fuel h1, unpackF fuel h2 with
            | some u1, some u2 => some (normal (Digest.comb u1 u2) sz)
            | _, _ => none

/-- The `Buffer` tree.  The class declaration is not in the shown source;
modelled from the spec (§3) and the field accesses of the source: `level`,
an optional 1024-byte leaf block `leaf`, and an optional 128-children array
`node`. -/
inductive Buffer where
  | mk : Nat → Option (List Nat) → Option (List Buffer) → Buffer

instance : Inhabited Buffer := ⟨Buffer.mk 0 none none⟩

/-- The `level` field of a Buffer. -/
def Buffer.level : Buffer → Nat
  | Buffer.mk l _ _ => l

/-- Modelled from the spec (§3, derived quantity): `calc_len` is not in the
shown source; the spec defines `extent(level) = 1024 * 128^level`. -/
def calc_len (level : Nat) : Nat := 1024 * 128 ^ level

mutual

/-- Source lines 127-137: `hash_node(buf, offset, len, sz)`.  NOTE: the base
case of the source reads `buf[0]`, not `buf[offset]`; the embedding is
faithful to the source. -/
def hash_nodeF : Nat → List Buffer → Nat → Nat → Nat → Option Packed
  | 0, _, _, _, _ => none
  | fuel + 1, bufs, offset, len, sz =>
    if len = 1 then hash_auxF fuel (bufs.getD 0 default)
    else
      match hash_nodeF fuel bufs offset (len / 2) (sz / 2) with
      | none => none
      | some h1 =>
        match hash_nodeF fuel bufs (offset + len / 2) (len / 2) (sz / 2) with
        | none => none
        | some h2 =>
          if is_zero_hash h2 then some (pack h1)
          else
            match unpackF fuel h1, unpackF fuel h2 with
            | some u1, some u2 => some (normal (Digest.comb u1 u2) sz)
            | _, _ => none

/-- Source lines 143-155: `Buffer::hash_aux()`.  NOTE: in the `level > 0`
branch the source tests `!leaf` (not `!node`); the embedding is faithful to
the source.  A null `node` dereference in the final branch is modelled as
`none`.  This version passes `calc_len level` into the callees unboundedly,
eliding the narrowing to their C++ `int sz` parameter, which overflows at
`level ≥ 3`; `hash_aux32` below makes that narrowing explicit, and the two
provably agree for `level ≤ 2`. -/
def hash_auxF : Nat → Buffer → Option Packed
  | 0, _ => none
  | fuel + 1, Buffer.mk level leaf node =>
    if level = 0 then
      match leaf with
      | none => zero_packedF fuel 1024
      | some data => hash_bufF fuel data 0 1024
    else
      match leaf with
      | none => zero_packedF fuel (calc_len level)
      | some _ =>
        match node with
        | none => none
        | some kids => hash_nodeF fuel kids 0 128 (calc_len level)

end

/-- Source lines 139-141: `Buffer::hash() { return hash_aux().hash; }`.
NOTE: the source returns the raw `hash` field of the Packed value, without
calling `unpack`. -/
def bufferHashF (fuel : Nat) (b : Buffer) : Option Digest :=
  (hash_auxF fuel b).map Packed.hash

/-- Well-formed Buffers (spec §3): `Empty` has neither field; a materialized
level-0 Buffer holds exactly 1024 leaf bytes; a materialized level `l+1`
Buffer holds exactly 128 children, each well-formed at level `l`. -/
inductive Wf : Buffer → Prop where
  | empty (l : Nat) : Wf (Buffer.mk l none none)
  | leafW (data : List Nat) (h : data.length = 1024) :
      Wf (Buffer.mk 0 (some data) none)
  | nodeW (l : Nat) (kids : List Buffer) (hlen : kids.length = 128)
      (hkids : ∀ b ∈ kids, Wf b) (hlev : ∀ b ∈ kids, Buffer.level b = l) :
      Wf (Buffer.mk (l + 1) none (some kids))

/-- A Buffer all of whose materialized leaf bytes are 0 (spec §8,
zero-region equivalence). -/
inductive AllZero : Buffer → Prop where
  | empty (l : Nat) : AllZero (Buffer.mk l none none)
  | leafZ (data : List Nat) (h : data = List.replicate 1024 0) :
      AllZero (Buffer.mk 0 (some data) none)
  | nodeZ (l : Nat) (kids : List Buffer) (hkids : ∀ b ∈ kids, AllZero b) :
      AllZero (Buffer.mk (l + 1) none (some kids))

/-- Modelled from the spec (§8, compression transparency): the reference
digest obtained by never taking the `compress` branch — the plain full Merkle
digest of the window `[offset, offset + 32*2^k)` of `buf`, with no zero-run
compression. -/
def merkle_buf (buf : List Nat) : Nat → Nat → Digest
  | offset, 0 => Digest.prim ((buf.drop offset).take 32)
  | offset, k + 1 =>
      Digest.comb (merkle_buf buf offset k)
        (merkle_buf buf (offset + 32 * 2 ^ k) k)

/-- Modelled from the spec (§8): the never-compress reference digest of a
Buffer's top-level hash, mirroring the dispatch of `hash_aux` in the source:
level 0 empty and every level > 0 buffer with no `leaf` field hash as the
all-zero region of their extent; a materialized leaf hashes as the full
Merkle digest of its 1024 bytes. -/
def hash_aux_u : Buffer → Digest
  | Buffer.mk 0 none _ => zhash 5
  | Buffer.mk 0 (some data) _ => merkle_buf data 0 5
  | Buffer.mk (l + 1) _ _ => zhash (5 + 7 * (l + 1))

/-- Modelled from the spec (§8): the never-compress reference digest for
`hash_node` over `2^j` children, mirroring the recursion of the source
(including its reading of child index 0 in the base case). -/
def merkle_node (bufs : List Buffer) : Nat → Nat → Digest
  | _offset, 0 => hash_aux_u (bufs.getD 0 default)
  | offset, j + 1 =>
      Digest.comb (merkle_node bufs offset j)
        (merkle_node bufs (offset + 2 ^ j) j)

/-- Pure characterization of the `unpack` loop: starting from digest `d` at
region exponent `a`, combine `n` times with zero hashes of doubling sizes. -/
def unpack_chain : Digest → Nat → Nat → Digest
  | d, _, 0 => d
  | d, a, n + 1 => unpack_chain (Digest.comb d (zhash a)) (a + 1) n

/-- The invariant carried by every Packed value the engine creates for a
region of `32 * 2^k` bytes whose never-compress reference digest is `ref`:
the size fields cover the region exactly, expanding the value yields `ref`,
an all-zero value is the canonical `{D0, 32, k}`, and only all-zero regions
expand to the all-zero digest. -/
def PackedSpec (p : Packed) (k : Nat) (ref : Digest) : Prop :=
  ∃ a, p.size = 32 * 2 ^ a ∧ a + p.packed = k ∧
    unpack_chain p.hash a p.packed = ref ∧
    (p.hash = D0 → p = Packed.mk D0 32 k) ∧
    (ref = zhash k → p.hash = D0)

/-- A Packed value reachable in a `commitment()` evaluation: `ReachesWith p k d`
holds when `p` is returned by a call of `zero_packed`, `hash_buf`, `hash_node`
or `hash_aux` covering a region of `32 * 2^k` bytes whose never-compress
reference digest (spec §8, compression transparency) is `d`. -/
inductive ReachesWith : Packed → Nat → Digest → Prop where
  | zp (fuel k : Nat) (p : Packed)
      (h : zero_packedF fuel (32 * 2 ^ k) = some p) :
      ReachesWith p k (zhash k)
  | hb (fuel k offset : Nat) (buf : List Nat) (p : Packed)
      (h : hash_bufF fuel buf offset (32 * 2 ^ k) = some p) :
      ReachesWith p k (merkle_buf buf offset k)
  | hn (fuel j offset l : Nat) (bufs : List Buffer) (p : Packed)
      (hw : Wf (bufs.getD 0 default))
      (hl : Buffer.level (bufs.getD 0 default) = l)
      (h : hash_nodeF fuel bufs offset (2 ^ j) (32 * 2 ^ (j + (5 + 7 * l))) = some p) :
      ReachesWith p (j + (5 + 7 * l)) (merkle_node bufs offset j)
  | ha (fuel : Nat) (b : Buffer) (p : Packed) (hw : Wf b)
      (h : hash_auxF fuel b = some p) :
      ReachesWith p (5 + 7 * Buffer.level b) (hash_aux_u b)

/-- The size range of spec §3: `baseSize` a power of two in `[32, 1024]`. -/
def SizeInRange (p : Packed) : Prop :=
  (∃ a, p.size = 32 * 2 ^ a) ∧ 32 ≤ p.size ∧ p.size ≤ 1024

/-!
### The 32-bit `int`-faithful size model

The source declares every size parameter as C++ `int` (32-bit
two's-complement): `zero_hash(int sz)`, `zero_packed(int sz)`,
`hash_buf(..., int offset, int sz)`, `hash_node(..., int offset, int len,
int sz)`.  `calc_len(level) = 1024 * 128^level` reaches `2^31 > INT_MAX`
already at `level = 3`, so whatever integer width the unshown `calc_len`
itself uses, passing its value into the `int sz` parameter at
`hash_aux`'s call sites (source lines 151 and 153) narrows it: the value
wraps to two's-complement.  The `*32` variants below model the parameters
as `Int` with C++ truncating division (`Int.tdiv`) and apply the
two's-complement narrowing `wrap32` exactly at those `calc_len` call
sites (and at `unpack`'s `sz*2`, the only other operation that could
leave the `int` range).  On every value representable in `int` they agree
with the unbounded functions above (proved below); at `level ≥ 3` the
wrapped size is non-positive and the halving recursion of `zero_packed`
never reaches 32 — the C++ code recurses forever.
-/

/-- Two's-complement narrowing to a 32-bit `int`: wrap an unbounded integer
into `[-2^31, 2^31)`. -/
def wrap32 (z : Int) : Int := (z + 2 ^ 31) % 2 ^ 32 - 2 ^ 31

/-- Source lines 76-82 with the declared C++ `int sz` parameter; `/` is C++
truncating division (`Int.tdiv`).  For `sz ≤ 0` the recursion stalls below
32 and never returns. -/
def zero_hash32 : Nat → Int → Option Digest
  | 0, _ => none
  | fuel + 1, sz =>
    if sz = 32 then some D0
    else
      match zero_hash32 fuel (Int.tdiv sz 2) with
      | none => none
      | some h1 => some (Digest.comb h1 h1)

/-- The `unpack` loop (source lines 96-104) with the `int sz` local: the
doubling `sz*2` is narrowed through `wrap32`. -/
def unpack_loop32 (fuel : Nat) : Nat → Digest → Int → Option Digest
  | 0, res, _ => some res
  | n + 1, res, sz =>
    match zero_hash32 fuel sz with
    | none => none
    | some z => unpack_loop32 fuel n (Digest.comb res z) (wrap32 (sz * 2))

/-- Source lines 96-104 with `int` sizes. -/
def unpack32 (fuel : Nat) (p : Packed) : Option Digest :=
  unpack_loop32 fuel p.packed p.hash (Int.ofNat p.size)

/-- Source lines 106-111 with the declared C++ `int sz` parameter. -/
def zero_packed32 : Nat → Int → Option Packed
  | 0, _ => none
  | fuel + 1, sz =>
    if sz = 32 then
      match zero_hash32 fuel 32 with
      | none => none
      | some h => some (normal h 32)
    else
      match zero_packed32 fuel (Int.tdiv sz 2) with
      | none => none
      | some p => some (pack p)

/-- Source lines 113-125 with the declared C++ `int offset, int sz`
parameters.  The `int size` field of the Packed struct is modelled by the
`Nat` field of `Packed` via `Int.toNat`; on every analyzed path the stored
size is non-negative. -/
def hash_buf32 : Nat → List Nat → Int → Int → Option Packed
  | 0, _, _, _ => none
  | fuel + 1, buf, offset, sz =>
    if sz = 32 then
      some (normal (Digest.prim ((buf.drop offset.toNat).take 32)) 32)
    else
      match hash_buf32 fuel buf offset (Int.tdiv sz 2) with
      | none => none
      | some h1 =>
        match hash_buf32 fuel buf (offset + Int.tdiv sz 2) (Int.tdiv sz 2) with
        | none => none
        | some h2 =>
          if is_zero_hash h2 then some (pack h1)
          else
            match unpack32 fuel h1, unpack32 fuel h2 with
            | some u1, some u2 => some (normal (Digest.comb u1 u2) sz.toNat)
            | _, _ => none

mutual

/-- Source lines 127-137 with the declared C++ `int offset, int len, int sz`
parameters (base case reads `buf[0]` as in the source). -/
def hash_node32 : Nat → List Buffer → Int → Int → Int → Option Packed
  | 0, _, _, _, _ => none
  | fuel + 1, bufs, offset, len, sz =>
    if len = 1 then hash_aux32 fuel (bufs.getD 0 default)
    else
      match hash_node32 fuel bufs offset (Int.tdiv len 2) (Int.tdiv sz 2) with
      | none => none
      | some h1 =>
        match hash_node32 fuel bufs (offset + Int.tdiv len 2) (Int.tdiv len 2)
            (Int.tdiv sz 2) with
        | none => none
        | some h2 =>
          if is_zero_hash h2 then some (pack h1)
          else
            match unpack32 fuel h1, unpack32 fuel h2 with
            | some u1, some u2 => some (normal (Digest.comb u1 u2) sz.toNat)
            | _, _ => none

/-- Source lines 143-155 with the narrowing of `calc_len(level)` to the
callees' C++ `int sz` parameter made explicit by `wrap32` (the `!leaf`
dispatch is kept as in the source). -/
def hash_aux32 : Nat → Buffer → Option Packed
  | 0, _ => none
  | fuel + 1, Buffer.mk level leaf node =>
    if level = 0 then
      match leaf with
      | none => zero_packed32 fuel 1024
      | some data => hash_buf32 fuel data 0 1024
    else
      match leaf with
      | none => zero_packed32 fuel (wrap32 (Int.ofNat (calc_len level)))
      | some _ =>
        match node with
        | none => none
        | some kids =>
            hash_node32 fuel kids 0 128 (wrap32 (Int.ofNat (calc_len level)))

end

/-- Source lines 139-141 over the `int`-faithful `hash_aux32`. -/
def bufferHash32 (fuel : Nat) (b : Buffer) : Option Digest :=
  (hash_aux32 fuel b).map Packed.hash

/-! ### Arithmetic helpers -/

theorem size_eq_base_iff (k : Nat) : 32 * 2 ^ k = 32 ↔ k = 0 := by
  constructor
  · intro h
    rcases k with _ | k
    · rfl
    · have h2 : 2 ≤ 2 ^ (k + 1) := Nat.one_lt_two_pow_iff.mpr (by omega)
      omega
  · intro h; subst h; rfl

theorem size_succ_div_two (k : Nat) : 32 * 2 ^ (k + 1) / 2 = 32 * 2 ^ k := by
  rw [pow_succ, ← Nat.mul_assoc]
  exact Nat.mul_div_cancel _ (by omega)

theorem pow_succ_div_two (j : Nat) : 2 ^ (j + 1) / 2 = 2 ^ j := by
  rw [pow_succ]
  exact Nat.mul_div_cancel _ (by omega)

theorem pow_ne_one (j : Nat) : 2 ^ (j + 1) ≠ 1 := by
  have h2 : 2 ≤ 2 ^ (j + 1) := Nat.one_lt_two_pow_iff.mpr (by omega)
  omega

theorem calc_len_eq (l : Nat) : calc_len l = 32 * 2 ^ (5 + 7 * l) := by
  show 1024 * 128 ^ l = 32 * 2 ^ (5 + 7 * l)
  have h128 : (128 : Nat) = 2 ^ 7 := rfl
  rw [h128, ← Nat.pow_mul, pow_add]
  ring

/-! ### zero_hash lemmas -/

theorem zero_hash_complete (k : Nat) :
    ∀ fuel, k + 1 ≤ fuel → zero_hashF fuel (32 * 2 ^ k) = some (zhash k) := by
  induction k with
  | zero =>
    intro fuel hf
    match fuel, hf with
    | fuel + 1, _ => simp [zero_hashF, zhash]
  | succ k ih =>
    intro fuel hf
    match fuel, hf with
    | fuel + 1, hf =>
      have hne : 32 * 2 ^ (k + 1) ≠ 32 := by
        simpa using (size_eq_base_iff (k + 1)).not.mpr (by omega)
      simp only [zero_hashF, if_neg hne, size_succ_div_two]
      rw [ih fuel (by omega)]
      rfl

theorem zero_hash_sound (fuel : Nat) :
    ∀ k d, zero_hashF fuel (32 * 2 ^ k) = some d → d = zhash k := by
  induction fuel with
  | zero => intro k d h; simp [zero_hashF] at h
  | succ fuel ih =>
    intro k d h
    rcases Nat.eq_zero_or_pos k with hk | hk
    · subst hk
      simp [zero_hashF] at h
      rw [← h]
      rfl
    · obtain ⟨k, rfl⟩ : ∃ m, k = m + 1 := ⟨k - 1, by omega⟩
      have hne : 32 * 2 ^ (k + 1) ≠ 32 := by
        simpa using (size_eq_base_iff (k + 1)).not.mpr (by omega)
      simp only [zero_hashF, if_neg hne, size_succ_div_two] at h
      cases hz : zero_hashF fuel (32 * 2 ^ k) with
      | none => rw [hz] at h; simp at h
      | some h1 =>
        rw [hz] at h
        simp at h
        rw [← h, ih k h1 hz]
        rfl

/-! ### unpack lemmas -/

theorem unpack_loop_complete (fuel : Nat) :
    ∀ n a d, a + n ≤ fuel →
      unpack_loopF fuel n d (32 * 2 ^ a) = some (unpack_chain d a n) := by
  intro n
  induction n with
  | zero => intro a d _; rfl
  | succ n ih =>
    intro a d hf
    simp only [unpack_loopF, zero_hash_complete a fuel (by omega)]
    have h2 : 32 * 2 ^ a * 2 = 32 * 2 ^ (a + 1) := by rw [pow_succ]; ring
    rw [h2]
    exact ih (a + 1) (Digest.comb d (zhash a)) (by omega)

theorem unpack_loop_sound (fuel : Nat) :
    ∀ n a d u, unpack_loopF fuel n d (32 * 2 ^ a) = some u →
      u = unpack_chain d a n := by
  intro n
  induction n with
  | zero => intro a d u h; simpa [unpack_loopF, unpack_chain] using h.symm
  | succ n ih =>
    intro a d u h
    simp only [unpack_loopF] at h
    cases hz : zero_hashF fuel (32 * 2 ^ a) with
    | none => rw [hz] at h; simp at h
    | some z =>
      rw [hz] at h
      simp only at h
      rw [zero_hash_sound fuel a z hz] at h
      have h2 : 32 * 2 ^ a * 2 = 32 * 2 ^ (a + 1) := by rw [pow_succ]; ring
      rw [h2] at h
      exact ih (a + 1) (Digest.comb d (zhash a)) u h

theorem unpack_complete (fuel : Nat) (p : Packed) (a : Nat)
    (hs : p.size = 32 * 2 ^ a) (hf : a + p.packed ≤ fuel) :
    unpackF fuel p = some (unpack_chain p.hash a p.packed) := by
  unfold unpackF
  rw [hs]
  exact unpack_loop_complete fuel p.packed a p.hash hf

theorem unpack_sound (fuel : Nat) (p : Packed) (a : Nat) (u : Digest)
    (hs : p.size = 32 * 2 ^ a) (h : unpackF fuel p = some u) :
    u = unpack_chain p.hash a p.packed := by
  unfold unpackF at h
  rw [hs] at h
  exact unpack_loop_sound fuel p.packed a p.hash u h

/-- Snoc form of the chain: the last combine uses the largest zero hash. -/
theorem unpack_chain_snoc :
    ∀ n d a, unpack_chain d a (n + 1) =
      Digest.comb (unpack_chain d a n) (zhash (a + n)) := by
  intro n
  induction n with
  | zero => intro d a; simp [unpack_chain]
  | succ n ih =>
    intro d a
    show unpack_chain (Digest.comb d (zhash a)) (a + 1) (n + 1) = _
    rw [ih]
    have : a + 1 + n = a + (n + 1) := by omega
    rw [this]
    rfl

/-- Expanding the canonical all-zero Packed value gives the all-zero digest. -/
theorem unpack_chain_zero : ∀ n a, unpack_chain (zhash a) a n = zhash (a + n) := by
  intro n
  induction n with
  | zero => intro a; rfl
  | succ n ih =>
    intro a
    show unpack_chain (Digest.comb (zhash a) (zhash a)) (a + 1) n = _
    have hz : Digest.comb (zhash a) (zhash a) = zhash (a + 1) := rfl
    rw [hz, ih (a + 1)]
    congr 1
    omega

/-! ### zero_packed lemmas -/

theorem zero_packed_complete (k : Nat) :
    ∀ fuel, k + 2 ≤ fuel → zero_packedF fuel (32 * 2 ^ k) = some (Packed.mk D0 32 k) := by
  induction k with
  | zero =>
    intro fuel hf
    match fuel, hf with
    | fuel + 1, hf =>
      simp only [pow_zero, Nat.mul_one, zero_packedF, if_pos rfl]
      rw [show (32 : Nat) = 32 * 2 ^ 0 from rfl, zero_hash_complete 0 fuel (by omega)]
      rfl
  | succ k ih =>
    intro fuel hf
    match fuel, hf with
    | fuel + 1, hf =>
      have hne : 32 * 2 ^ (k + 1) ≠ 32 := by
        simpa using (size_eq_base_iff (k + 1)).not.mpr (by omega)
      simp only [zero_packedF, if_neg hne, size_succ_div_two]
      rw [ih fuel (by omega)]
      rfl

theorem zero_packed_sound (fuel : Nat) :
    ∀ k p, zero_packedF fuel (32 * 2 ^ k) = some p → p = Packed.mk D0 32 k := by
  induction fuel with
  | zero => intro k p h; simp [zero_packedF] at h
  | succ fuel ih =>
    intro k p h
    rcases Nat.eq_zero_or_pos k with hk | hk
    · subst hk
      simp only [pow_zero, Nat.mul_one, zero_packedF, if_pos rfl] at h
      cases hz : zero_hashF fuel 32 with
      | none => rw [hz] at h; simp at h
      | some z =>
        rw [hz] at h
        simp at h
        have hz0 : z = zhash 0 := by
          apply zero_hash_sound fuel 0
          simpa using hz
        rw [← h, hz0]
        rfl
    · obtain ⟨k, rfl⟩ : ∃ m, k = m + 1 := ⟨k - 1, by omega⟩
      have hne : 32 * 2 ^ (k + 1) ≠ 32 := by
        simpa using (size_eq_base_iff (k + 1)).not.mpr (by omega)
      simp only [zero_packedF, if_neg hne, size_succ_div_two] at h
      cases hz : zero_packedF fuel (32 * 2 ^ k) with
      | none => rw [hz] at h; simp at h
      | some q =>
        rw [hz] at h
        simp only [Option.some.injEq] at h
        rw [← h, ih k q hz]
        rfl

/-- Every Packed value `zero_packed` ever builds has base size exactly 32,
for every argument (structural size invariant used by C4). -/
theorem zero_packed_size (fuel : Nat) :
    ∀ sz p, zero_packedF fuel sz = some p → p.size = 32 := by
  induction fuel with
  | zero => intro sz p h; simp [zero_packedF] at h
  | succ fuel ih =>
    intro sz p h
    by_cases hsz : sz = 32
    · subst hsz
      simp only [zero_packedF, if_pos rfl] at h
      cases hz : zero_hashF fuel 32 with
      | none => rw [hz] at h; simp at h
      | some z =>
        rw [hz] at h
        simp at h
        rw [← h]
        rfl
    · simp only [zero_packedF, if_neg hsz] at h
      cases hz : zero_packedF fuel (sz / 2) with
      | none => rw [hz] at h; simp at h
      | some q =>
        rw [hz] at h
        simp only [Option.some.injEq] at h
        rw [← h]
        exact ih (sz / 2) q hz

/-! ### The reachable-Packed invariant -/

theorem is_zero_iff (p : Packed) : is_zero_hash p = true ↔ p.hash = D0 := by
  simp [is_zero_hash]

theorem comb_ne_D0 (a b : Digest) : Digest.comb a b ≠ D0 := by
  intro h
  simp [D0] at h

theorem packedSpec_zero (k : Nat) : PackedSpec (Packed.mk D0 32 k) k (zhash k) := by
  refine ⟨0, rfl, by simp, ?_, fun _ => rfl, fun _ => rfl⟩
  have hz := unpack_chain_zero k 0
  simpa [zhash] using hz

/-- If a Packed value satisfying the invariant is all-zero, its reference
digest is the all-zero digest. -/
theorem packedSpec_ref_of_zero {p : Packed} {k : Nat} {ref : Digest}
    (hs : PackedSpec p k ref) (hz : p.hash = D0) : ref = zhash k := by
  obtain ⟨a, hsz, hak, hchain, hcanon, _⟩ := hs
  have hp := hcanon hz
  subst hp
  have hak2 : a + k = k := hak
  have ha : a = 0 := by omega
  subst ha
  have hchain2 : unpack_chain D0 0 k = ref := hchain
  rw [← hchain2]
  have hz2 := unpack_chain_zero k 0
  simpa [zhash] using hz2

/-- The `isZero`-guarded compress-vs-combine step (shared by `hash_buf` and
`hash_node`, source lines 118-124 and 133-136) preserves the invariant. -/
theorem packedSpec_step {h1 h2 p : Packed} {k : Nat} {r1 r2 : Digest} (fuel : Nat)
    (hs1 : PackedSpec h1 k r1) (hs2 : PackedSpec h2 k r2)
    (hres : (if is_zero_hash h2 then some (pack h1)
             else
               match unpackF fuel h1, unpackF fuel h2 with
               | some u1, some u2 =>
                   some (normal (Digest.comb u1 u2) (32 * 2 ^ (k + 1)))
               | _, _ => none) = some p) :
    PackedSpec p (k + 1) (Digest.comb r1 r2) := by
  by_cases hz : is_zero_hash h2 = true
  · rw [if_pos hz] at hres
    simp only [Option.some.injEq] at hres
    subst hres
    obtain ⟨a1, hsz1, hak1, hchain1, hcanon1, href1⟩ := hs1
    have hr2 : r2 = zhash k :=
      packedSpec_ref_of_zero hs2 ((is_zero_iff h2).mp hz)
    refine ⟨a1, hsz1, ?_, ?_, ?_, ?_⟩
    · show a1 + (h1.packed + 1) = k + 1
      omega
    · show unpack_chain h1.hash a1 (h1.packed + 1) = Digest.comb r1 r2
      rw [unpack_chain_snoc, hchain1, hak1, hr2]
    · intro hD
      have hcanon := hcanon1 hD
      show pack h1 = Packed.mk D0 32 (k + 1)
      rw [hcanon]
      rfl
    · intro hcomb
      have hcc : Digest.comb r1 r2 = Digest.comb (zhash k) (zhash k) := by
        rw [hcomb]; rfl
      injection hcc with hl hr
      show h1.hash = D0
      exact href1 hl
  · rw [if_neg hz] at hres
    cases hu1 : unpackF fuel h1 with
    | none => rw [hu1] at hres; cases hu2 : unpackF fuel h2 <;> rw [hu2] at hres <;> simp at hres
    | some u1 =>
      cases hu2 : unpackF fuel h2 with
      | none => rw [hu1, hu2] at hres; simp at hres
      | some u2 =>
        rw [hu1, hu2] at hres
        simp only [Option.some.injEq] at hres
        subst hres
        obtain ⟨a1, hsz1, hak1, hchain1, hcanon1, href1⟩ := hs1
        obtain ⟨a2, hsz2, hak2, hchain2, hcanon2, href2⟩ := hs2
        have hu1v : u1 = r1 := by
          rw [unpack_sound fuel h1 a1 u1 hsz1 hu1, hchain1]
        have hu2v : u2 = r2 := by
          rw [unpack_sound fuel h2 a2 u2 hsz2 hu2, hchain2]
        rw [← hu1v, ← hu2v]
        refine ⟨k + 1, rfl, ?_, rfl, ?_, ?_⟩
        · show k + 1 + 0 = k + 1
          rfl
        · intro hD
          exact absurd hD (comb_ne_D0 u1 u2)
        · intro hcomb
          have hcc : Digest.comb u1 u2 = Digest.comb (zhash k) (zhash k) := by
            rw [hcomb]; rfl
          injection hcc with hl hr
          have hD2 : h2.hash = D0 := href2 (hu2v ▸ hr)
          exact absurd ((is_zero_iff h2).mpr hD2) hz

/-- Every Packed value `hash_buf` returns for a window of `32 * 2^k` bytes
satisfies the invariant, with the plain full Merkle digest of the window as
its never-compress reference. -/
theorem hash_buf_sound (fuel : Nat) :
    ∀ k offset buf p, hash_bufF fuel buf offset (32 * 2 ^ k) = some p →
      PackedSpec p k (merkle_buf buf offset k) := by
  induction fuel with
  | zero => intro k offset buf p h; simp [hash_bufF] at h
  | succ fuel ih =>
    intro k offset buf p h
    rcases Nat.eq_zero_or_pos k with hk | hk
    · subst hk
      simp only [pow_zero, Nat.mul_one, hash_bufF, if_true, Option.some.injEq] at h
      subst h
      refine ⟨0, rfl, rfl, rfl, ?_, ?_⟩
      · intro hD
        show normal (Digest.prim ((buf.drop offset).take 32)) 32 = Packed.mk D0 32 0
        have : Digest.prim ((buf.drop offset).take 32) = D0 := hD
        rw [show normal (Digest.prim ((buf.drop offset).take 32)) 32 =
              Packed.mk (Digest.prim ((buf.drop offset).take 32)) 32 0 from rfl, this]
      · intro hr
        exact hr
    · obtain ⟨k, rfl⟩ : ∃ m, k = m + 1 := ⟨k - 1, by omega⟩
      have hne : 32 * 2 ^ (k + 1) ≠ 32 := by
        simpa using (size_eq_base_iff (k + 1)).not.mpr (by omega)
      simp only [hash_bufF, if_neg hne, size_succ_div_two] at h
      cases he1 : hash_bufF fuel buf offset (32 * 2 ^ k) with
      | none => rw [he1] at h; simp at h
      | some h1 =>
        rw [he1] at h
        cases he2 : hash_bufF fuel buf (offset + 32 * 2 ^ k) (32 * 2 ^ k) with
        | none => rw [he2] at h; simp at h
        | some h2 =>
          rw [he2] at h
          simp only at h
          have hs1 := ih k offset buf h1 he1
          have hs2 := ih k (offset + 32 * 2 ^ k) buf h2 he2
          exact packedSpec_step fuel hs1 hs2 h

/-- `hash_buf` terminates (returns a value) once the fuel covers the
recursion depth of a well-formed window size. -/
theorem hash_buf_complete (k : Nat) :
    ∀ offset buf fuel, k + 1 ≤ fuel →
      ∃ p, hash_bufF fuel buf offset (32 * 2 ^ k) = some p := by
  induction k with
  | zero =>
    intro offset buf fuel hf
    match fuel, hf with
    | fuel + 1, _ =>
      exact ⟨normal (Digest.prim ((buf.drop offset).take 32)) 32, by simp [hash_bufF]⟩
  | succ k ih =>
    intro offset buf fuel hf
    match fuel, hf with
    | fuel + 1, hf =>
      have hfk : k + 1 ≤ fuel := by omega
      obtain ⟨h1, he1⟩ := ih offset buf fuel hfk
      obtain ⟨h2, he2⟩ := ih (offset + 32 * 2 ^ k) buf fuel hfk
      have hne : 32 * 2 ^ (k + 1) ≠ 32 := by
        simpa using (size_eq_base_iff (k + 1)).not.mpr (by omega)
      simp only [hash_bufF, if_neg hne, size_succ_div_two, he1, he2]
      by_cases hz : is_zero_hash h2 = true
      · rw [if_pos hz]
        exact ⟨pack h1, rfl⟩
      · rw [if_neg hz]
        obtain ⟨a1, hsz1, hak1, _, _, _⟩ := hash_buf_sound fuel k offset buf h1 he1
        obtain ⟨a2, hsz2, hak2, _, _, _⟩ :=
          hash_buf_sound fuel k (offset + 32 * 2 ^ k) buf h2 he2
        simp only [unpack_complete fuel h1 a1 hsz1 (by omega),
          unpack_complete fuel h2 a2 hsz2 (by omega)]
        exact ⟨_, rfl⟩

/-- Hashing an all-zero window produces exactly the canonical compressed-zero
Packed value (same value as `zero_packed`). -/
theorem hash_buf_zeros (k : Nat) :
    ∀ offset fuel, k + 1 ≤ fuel → offset + 32 * 2 ^ k ≤ 1024 →
      hash_bufF fuel (List.replicate 1024 0) offset (32 * 2 ^ k) =
        some (Packed.mk D0 32 k) := by
  induction k with
  | zero =>
    intro offset fuel hf hoff
    match fuel, hf with
    | fuel + 1, _ =>
      simp only [pow_zero, Nat.mul_one, hash_bufF, if_true, List.drop_replicate,
        List.take_replicate]
      have hmin : min 32 (1024 - offset) = 32 := by omega
      rw [hmin]
      rfl
  | succ k ih =>
    intro offset fuel hf hoff
    match fuel, hf with
    | fuel + 1, hf =>
      have hpow : (0 : Nat) < 32 * 2 ^ k := by positivity
      have he1 := ih offset fuel (by omega) (by omega)
      have he2 := ih (offset + 32 * 2 ^ k) fuel (by omega)
        (by
          have hsum : 32 * 2 ^ k + 32 * 2 ^ k = 32 * 2 ^ (k + 1) := by
            rw [pow_succ]; ring
          omega)
      have hne : 32 * 2 ^ (k + 1) ≠ 32 := by
        simpa using (size_eq_base_iff (k + 1)).not.mpr (by omega)
      simp only [hash_bufF, if_neg hne, size_succ_div_two, he1, he2]
      have hz : is_zero_hash (Packed.mk D0 32 k) = true := by
        simp [is_zero_hash]
      rw [if_pos hz]
      rfl

/-- 1024 as a power-of-two window size. -/
theorem k1024 : (1024 : Nat) = 32 * 2 ^ 5 := by norm_num

/-- Every Packed value `hash_aux` returns for a well-formed Buffer satisfies
the invariant at exponent `5 + 7*level`, with its never-compress reference. -/
theorem hash_aux_sound (fuel : Nat) (b : Buffer) (p : Packed) (hw : Wf b)
    (h : hash_auxF fuel b = some p) :
    PackedSpec p (5 + 7 * Buffer.level b) (hash_aux_u b) := by
  match fuel with
  | 0 => simp [hash_auxF] at h
  | fuel + 1 =>
    cases hw with
    | empty l =>
      rcases Nat.eq_zero_or_pos l with hl | hl
      · subst hl
        simp only [hash_auxF, if_true] at h
        rw [k1024] at h
        have hp := zero_packed_sound fuel 5 p h
        subst hp
        exact packedSpec_zero 5
      · obtain ⟨l, rfl⟩ : ∃ m, l = m + 1 := ⟨l - 1, by omega⟩
        simp only [hash_auxF, Nat.succ_ne_zero, if_false] at h
        rw [calc_len_eq] at h
        have hp := zero_packed_sound fuel (5 + 7 * (l + 1)) p h
        subst hp
        exact packedSpec_zero (5 + 7 * (l + 1))
    | leafW data hlen =>
      simp only [hash_auxF, if_true] at h
      rw [k1024] at h
      exact hash_buf_sound fuel 5 0 data p h
    | nodeW l kids hlen hkids hlev =>
      simp only [hash_auxF, Nat.succ_ne_zero, if_false] at h
      rw [calc_len_eq] at h
      have hp := zero_packed_sound fuel (5 + 7 * (l + 1)) p h
      subst hp
      exact packedSpec_zero (5 + 7 * (l + 1))

/-- `hash_aux` terminates on every well-formed Buffer given fuel linear in
the level. -/
theorem hash_aux_complete (b : Buffer) (fuel : Nat) (hw : Wf b)
    (hf : 7 * Buffer.level b + 8 ≤ fuel) :
    ∃ p, hash_auxF fuel b = some p := by
  match fuel, hf with
  | fuel + 1, hf =>
    cases hw with
    | empty l =>
      rcases Nat.eq_zero_or_pos l with hl | hl
      · subst hl
        simp only [hash_auxF, if_true]
        rw [k1024]
        exact ⟨_, zero_packed_complete 5 fuel (by simp [Buffer.level] at hf; omega)⟩
      · obtain ⟨l, rfl⟩ : ∃ m, l = m + 1 := ⟨l - 1, by omega⟩
        simp only [hash_auxF, Nat.succ_ne_zero, if_false]
        rw [calc_len_eq]
        refine ⟨_, zero_packed_complete (5 + 7 * (l + 1)) fuel ?_⟩
        simp only [Buffer.level] at hf
        omega
    | leafW data hlen =>
      simp only [hash_auxF, if_true]
      rw [k1024]
      obtain ⟨p, hp⟩ := hash_buf_complete 5 0 data fuel
        (by simp only [Buffer.level] at hf; omega)
      exact ⟨p, hp⟩
    | nodeW l kids hlen hkids hlev =>
      simp only [hash_auxF, Nat.succ_ne_zero, if_false]
      rw [calc_len_eq]
      refine ⟨_, zero_packed_complete (5 + 7 * (l + 1)) fuel ?_⟩
      simp only [Buffer.level] at hf
      omega

/-- Every Packed value `hash_node` returns over `2^j` children (whose child 0
is well-formed at level `l`) with coherent size argument satisfies the
invariant, with its never-compress reference digest. -/
theorem hash_node_sound (fuel : Nat) :
    ∀ j offset bufs (p : Packed) (l : Nat),
      Wf (bufs.getD 0 default) → Buffer.level (bufs.getD 0 default) = l →
      hash_nodeF fuel bufs offset (2 ^ j) (32 * 2 ^ (j + (5 + 7 * l))) = some p →
      PackedSpec p (j + (5 + 7 * l)) (merkle_node bufs offset j) := by
  induction fuel with
  | zero => intro j offset bufs p l _ _ h; simp [hash_nodeF] at h
  | succ fuel ih =>
    intro j offset bufs p l hw hl h
    rcases Nat.eq_zero_or_pos j with hj | hj
    · subst hj
      simp only [hash_nodeF, pow_zero, if_true] at h
      have hs := hash_aux_sound fuel (bufs.getD 0 default) p hw h
      rw [hl] at hs
      have hz : (0 : Nat) + (5 + 7 * l) = 5 + 7 * l := by omega
      rw [hz]
      exact hs
    · obtain ⟨j, rfl⟩ : ∃ m, j = m + 1 := ⟨j - 1, by omega⟩
      have hexp : j + 1 + (5 + 7 * l) = (j + (5 + 7 * l)) + 1 := by omega
      rw [hexp] at h
      have hne : (2 : Nat) ^ (j + 1) ≠ 1 := pow_ne_one j
      simp only [hash_nodeF, if_neg hne, pow_succ_div_two, size_succ_div_two] at h
      cases he1 : hash_nodeF fuel bufs offset (2 ^ j) (32 * 2 ^ (j + (5 + 7 * l))) with
      | none => rw [he1] at h; simp at h
      | some h1 =>
        rw [he1] at h
        cases he2 : hash_nodeF fuel bufs (offset + 2 ^ j) (2 ^ j)
            (32 * 2 ^ (j + (5 + 7 * l))) with
        | none => rw [he2] at h; simp at h
        | some h2 =>
          rw [he2] at h
          simp only at h
          have hs1 := ih j offset bufs h1 l hw hl he1
          have hs2 := ih j (offset + 2 ^ j) bufs h2 l hw hl he2
          have hstep := packedSpec_step fuel hs1 hs2 h
          rw [hexp]
          exact hstep

/-- `hash_node` terminates over `2^j` well-formed children given fuel linear
in `j` and the level. -/
theorem hash_node_complete (j : Nat) :
    ∀ offset bufs fuel (l : Nat),
      Wf (bufs.getD 0 default) → Buffer.level (bufs.getD 0 default) = l →
      j + 7 * l + 9 ≤ fuel →
      ∃ p, hash_nodeF fuel bufs offset (2 ^ j) (32 * 2 ^ (j + (5 + 7 * l))) = some p := by
  induction j with
  | zero =>
    intro offset bufs fuel l hw hl hf
    match fuel, hf with
    | fuel + 1, hf =>
      simp only [hash_nodeF, pow_zero, if_true]
      exact hash_aux_complete (bufs.getD 0 default) fuel hw (by omega)
  | succ j ih =>
    intro offset bufs fuel l hw hl hf
    match fuel, hf with
    | fuel + 1, hf =>
      obtain ⟨h1, he1⟩ := ih offset bufs fuel l hw hl (by omega)
      obtain ⟨h2, he2⟩ := ih (offset + 2 ^ j) bufs fuel l hw hl (by omega)
      have hne : (2 : Nat) ^ (j + 1) ≠ 1 := pow_ne_one j
      have hexp : j + 1 + (5 + 7 * l) = (j + (5 + 7 * l)) + 1 := by omega
      rw [hexp]
      simp only [hash_nodeF, if_neg hne, pow_succ_div_two, size_succ_div_two, he1, he2]
      by_cases hz : is_zero_hash h2 = true
      · rw [if_pos hz]
        exact ⟨pack h1, rfl⟩
      · rw [if_neg hz]
        obtain ⟨a1, hsz1, hak1, _, _, _⟩ := hash_node_sound fuel j offset bufs h1 l hw hl he1
        obtain ⟨a2, hsz2, hak2, _, _, _⟩ :=
          hash_node_sound fuel j (offset + 2 ^ j) bufs h2 l hw hl he2
        simp only [unpack_complete fuel h1 a1 hsz1 (by omega),
          unpack_complete fuel h2 a2 hsz2 (by omega)]
        exact ⟨_, rfl⟩

/-- Every reachable Packed value satisfies the invariant with its
never-compress reference digest. -/
theorem reaches_spec {p : Packed} {k : Nat} {d : Digest}
    (hr : ReachesWith p k d) : PackedSpec p k d := by
  cases hr with
  | zp fuel k p h =>
    have hp := zero_packed_sound fuel k p h
    subst hp
    exact packedSpec_zero k
  | hb fuel k offset buf p h =>
    exact hash_buf_sound fuel k offset buf p h
  | hn fuel j offset l bufs p hw hl h =>
    exact hash_node_sound fuel j offset bufs p l hw hl h
  | ha fuel b p hw h =>
    exact hash_aux_sound fuel b p hw h

/-! ### Claim theorems -/

/-- C1: the claim states that `Buffer::hash` returns `expand(rootPacked(b))`
and that the commitment of an Empty level-0 Buffer equals `zeroHash(1024)`.
The code instead returns the raw `hash` field of `hash_aux()` without
expanding: on the Empty level-0 Buffer it yields `zeroHash(32) = D0`, while
`expand(hash_aux())` — and `zeroHash(1024)` — is `zhash 5 ≠ D0`.  This
theorem evaluates the code at the failing input. -/
theorem C1_hash_not_expanded :
    bufferHashF 9 (Buffer.mk 0 none none) = some D0 ∧
    hash_auxF 9 (Buffer.mk 0 none none) = some (Packed.mk D0 32 5) ∧
    unpackF 9 (Packed.mk D0 32 5) = some (zhash 5) ∧
    zero_hashF 9 1024 = some (zhash 5) ∧
    D0 ≠ zhash 5 :=
  ⟨by decide, by decide, by decide, by decide, by decide⟩

set_option maxRecDepth 10000 in
/-- C2: the claim states that the `count == 1` base case of `hash_node`
returns `hash_aux` of the child at index `offset`.  The code reads `buf[0]`
(see the note on `hash_nodeF`)
instead: called with `offset = 1` on a two-child array whose child 0 is Empty
and whose child 1 is a materialized leaf with byte 0 set to 1, it returns the
Empty child's packed hash, not child 1's.  This theorem evaluates the code at
the failing input. -/
theorem C2_hash_node_reads_child_zero :
    hash_nodeF 10
        [Buffer.mk 0 none none,
         Buffer.mk 0 (some (1 :: List.replicate 1023 0)) none] 1 1 1024 =
      some (Packed.mk D0 32 5) ∧
    hash_auxF 9 (Buffer.mk 0 none none) = some (Packed.mk D0 32 5) ∧
    hash_auxF 9 (Buffer.mk 0 (some (1 :: List.replicate 1023 0)) none) =
      some (Packed.mk (Digest.prim (1 :: List.replicate 31 0)) 32 5) ∧
    Packed.mk D0 32 5 ≠ Packed.mk (Digest.prim (1 :: List.replicate 31 0)) 32 5 :=
  ⟨by decide, by decide, by decide, by decide⟩

/-- C3: compression transparency — for every reachable Packed value `p`
(created by `zero_packed`, `hash_buf`, `hash_node` or `hash_aux` during a
`commitment()` evaluation), `expand(p)` (i.e. `unpack`) is bit-identical to
the digest `d` obtained by never taking the compress branch: the plain Merkle
digest of the same region with every `compress(h1)` replaced by combining
with the zero hash of the sibling's size. -/
theorem C3_compression_transparent (p : Packed) (k : Nat) (d : Digest)
    (fuel : Nat) (hr : ReachesWith p k d) (hf : k + 1 ≤ fuel) :
    unpackF fuel p = some d := by
  obtain ⟨a, hsz, hak, hchain, _, _⟩ := reaches_spec hr
  rw [unpack_complete fuel p a hsz (by omega), hchain]

theorem C3_compression_transparent_witness :
    unpackF 3 (Packed.mk D0 32 2) = some (zhash 2) :=
  C3_compression_transparent (Packed.mk D0 32 2) 2 (zhash 2) 3
    (ReachesWith.zp 4 2 (Packed.mk D0 32 2) (by decide)) (by decide)

/-- C5: zero-test soundness — for every reachable Packed value `p`,
`isZero(p)` (the comparison of `p.hash` against `zeroHash(32)`) holds iff
`expand(p)` equals `zeroHash(p.baseSize * 2^p.doublings)`. -/
theorem C5_zero_test_sound (p : Packed) (k : Nat) (d : Digest) (fuel : Nat)
    (hr : ReachesWith p k d) (hf : k + 1 ≤ fuel) :
    (is_zero_hash p = true ↔
      unpackF fuel p = zero_hashF fuel (p.size * 2 ^ p.packed)) := by
  have hspec := reaches_spec hr
  obtain ⟨a, hsz, hak, hchain, hcanon, href⟩ := hspec
  have hsize : p.size * 2 ^ p.packed = 32 * 2 ^ k := by
    rw [hsz, ← hak, pow_add]
    ring
  rw [hsize, zero_hash_complete k fuel hf,
    unpack_complete fuel p a hsz (by omega)]
  constructor
  · intro hz
    have hD := (is_zero_iff p).mp hz
    have hd : d = zhash k :=
      packedSpec_ref_of_zero ⟨a, hsz, hak, hchain, hcanon, href⟩ hD
    rw [hchain, hd]
  · intro he
    simp only [Option.some.injEq] at he
    rw [hchain] at he
    exact (is_zero_iff p).mpr (href he)

theorem C5_zero_test_sound_witness :
    is_zero_hash (Packed.mk D0 32 1) = true ↔
      unpackF 2 (Packed.mk D0 32 1) =
        zero_hashF 2 ((Packed.mk D0 32 1).size * 2 ^ (Packed.mk D0 32 1).packed) :=
  C5_zero_test_sound (Packed.mk D0 32 1) 1 (merkle_buf (List.replicate 64 0) 0 1) 2
    (ReachesWith.hb 2 1 0 (List.replicate 64 0) (Packed.mk D0 32 1) (by decide))
    (by decide)

/-- C4: every Packed value created during a `commitment()` evaluation has a
`size` (baseSize) field that is a power of two in `[32, 1024]`.  During
`commitment()` the engine only runs `zero_packed` (whose every created value
has size 32 — also under `calc_len(level)` for any level) and `hash_buf` at
window exponents `k ≤ 5`; `hash_node` is never entered because `hash_aux`
dispatches every bufferless-`leaf` Buffer (hence every well-formed `level > 0`
Buffer) to `zero_packed`.  The three conjuncts cover, in order: all
`zero_packed` calls at any size, all `hash_buf` (sub)calls of a leaf hashing,
and the top-level `hash_aux` results. -/
theorem C4_base_size_in_range :
    (∀ fuel sz p, zero_packedF fuel sz = some p → p.size = 32 ∧ SizeInRange p) ∧
    (∀ fuel k offset buf p, k ≤ 5 →
        hash_bufF fuel buf offset (32 * 2 ^ k) = some p → SizeInRange p) ∧
    (∀ fuel b p, Wf b → hash_auxF fuel b = some p → SizeInRange p) := by
  have hrange : ∀ (p : Packed) (a : Nat), p.size = 32 * 2 ^ a → a ≤ 5 → SizeInRange p := by
    intro p a hsz ha
    refine ⟨⟨a, hsz⟩, ?_, ?_⟩
    · rw [hsz]
      have h1 : (1 : Nat) ≤ 2 ^ a := Nat.one_le_two_pow
      omega
    · rw [hsz]
      have h32 : (2 : Nat) ^ a ≤ 2 ^ 5 := Nat.pow_le_pow_right (by omega) ha
      omega
  have hbuf : ∀ fuel k offset buf p, k ≤ 5 →
      hash_bufF fuel buf offset (32 * 2 ^ k) = some p → SizeInRange p := by
    intro fuel k offset buf p hk h
    obtain ⟨a, hsz, hak, _, _, _⟩ := hash_buf_sound fuel k offset buf p h
    exact hrange p a hsz (by omega)
  have hzp : ∀ fuel sz p, zero_packedF fuel sz = some p → p.size = 32 ∧ SizeInRange p := by
    intro fuel sz p h
    have h32 := zero_packed_size fuel sz p h
    refine ⟨h32, hrange p 0 (by simpa using h32) (by omega)⟩
  refine ⟨hzp, hbuf, ?_⟩
  intro fuel b p hw h
  match fuel with
  | 0 => simp [hash_auxF] at h
  | fuel + 1 =>
    cases hw with
    | empty l =>
      rcases Nat.eq_zero_or_pos l with hl | hl
      · subst hl
        simp only [hash_auxF, if_true] at h
        exact (hzp fuel 1024 p h).2
      · obtain ⟨l, rfl⟩ : ∃ m, l = m + 1 := ⟨l - 1, by omega⟩
        simp only [hash_auxF, Nat.succ_ne_zero, if_false] at h
        exact (hzp fuel (calc_len (l + 1)) p h).2
    | leafW data hlen =>
      simp only [hash_auxF, if_true] at h
      rw [k1024] at h
      exact hbuf fuel 5 0 data p (by omega) h
    | nodeW l kids hlen hkids hlev =>
      simp only [hash_auxF, Nat.succ_ne_zero, if_false] at h
      exact (hzp fuel (calc_len (l + 1)) p h).2

theorem C4_base_size_in_range_witness :
    (Packed.mk D0 32 5).size = 32 ∧ SizeInRange (Packed.mk D0 32 5) :=
  C4_base_size_in_range.1 7 1024 (Packed.mk D0 32 5) (by decide)

/-- C6: `zeroHash(32)` equals the primitive digest `D0` of a 32-byte all-zero
block, and for every size `32 * 2^(k+1)` the recursion satisfies
`zeroHash(size) = combine(zeroHash(size/2), zeroHash(size/2))`; in particular
`zeroHash(1024)` is `combine` applied 5 times doubling from `D0`. -/
theorem C6_zero_hash_recursion :
    (zero_hashF 1 32 = some D0 ∧ D0 = Digest.prim (List.replicate 32 0)) ∧
    (∀ k fuel, k + 2 ≤ fuel →
        zero_hashF fuel (32 * 2 ^ k) = some (zhash k) ∧
        zero_hashF fuel (32 * 2 ^ (k + 1)) =
          some (Digest.comb (zhash k) (zhash k))) ∧
    zero_hashF 6 1024 = some ((fun d => Digest.comb d d)^[5] D0) := by
  refine ⟨⟨by decide, rfl⟩, ?_, by decide⟩
  intro k fuel hf
  refine ⟨zero_hash_complete k fuel (by omega), ?_⟩
  rw [zero_hash_complete (k + 1) fuel (by omega)]
  rfl

theorem C6_zero_hash_recursion_witness :
    zero_hashF 4 (32 * 2 ^ 2) = some (zhash 2) ∧
    zero_hashF 4 (32 * 2 ^ 3) = some (Digest.comb (zhash 2) (zhash 2)) :=
  C6_zero_hash_recursion.2.1 2 4 (by decide)

/-- C8: size-coverage invariant — every Packed value returned by
`zero_packed(sz)` or `hash_buf(buf, offset, sz)` with `sz = 32 * 2^k`
satisfies `size * 2^packed = sz`; `zero_packed(32 * 2^k)` is exactly the
triple `{zeroHash(32), 32, k}`; and the packed hash field of an Empty Buffer
is the constant `zeroHash(32) = D0` at every level. -/
theorem C8_size_coverage :
    (∀ fuel k p, zero_packedF fuel (32 * 2 ^ k) = some p →
        p = Packed.mk D0 32 k ∧ p.size * 2 ^ p.packed = 32 * 2 ^ k) ∧
    (∀ fuel k offset buf p, hash_bufF fuel buf offset (32 * 2 ^ k) = some p →
        p.size * 2 ^ p.packed = 32 * 2 ^ k) ∧
    (∀ fuel l p, hash_auxF fuel (Buffer.mk l none none) = some p →
        p.hash = D0) := by
  refine ⟨?_, ?_, ?_⟩
  · intro fuel k p h
    have hp := zero_packed_sound fuel k p h
    subst hp
    exact ⟨rfl, rfl⟩
  · intro fuel k offset buf p h
    obtain ⟨a, hsz, hak, _, _, _⟩ := hash_buf_sound fuel k offset buf p h
    rw [hsz, ← hak, pow_add]
    ring
  · intro fuel l p h
    match fuel with
    | 0 => simp [hash_auxF] at h
    | fuel + 1 =>
      rcases Nat.eq_zero_or_pos l with hl | hl
      · subst hl
        simp only [hash_auxF, if_true] at h
        rw [k1024] at h
        rw [zero_packed_sound fuel 5 p h]
      · obtain ⟨l, rfl⟩ : ∃ m, l = m + 1 := ⟨l - 1, by omega⟩
        simp only [hash_auxF, Nat.succ_ne_zero, if_false] at h
        rw [calc_len_eq] at h
        rw [zero_packed_sound fuel (5 + 7 * (l + 1)) p h]

theorem C8_size_coverage_witness :
    Packed.mk D0 32 5 = Packed.mk D0 32 5 ∧
    (Packed.mk D0 32 5).size * 2 ^ (Packed.mk D0 32 5).packed = 32 * 2 ^ 5 :=
  C8_size_coverage.1 7 5 (Packed.mk D0 32 5) (by decide)

/-- C7: zero-region equivalence — for any level, a Buffer with Empty content
produces the same `hash_aux` value and the same `commitment()` as a
materialized Buffer at the same level all of whose leaf bytes are 0; in
particular (second conjunct) an Empty level-2 Buffer's commitment equals that
of a materialized level-2 Buffer whose 128 children are all Empty level-1
Buffers. -/
theorem C7_zero_region_equiv :
    (∀ b fuel, Wf b → AllZero b → 7 * Buffer.level b + 8 ≤ fuel →
        hash_auxF fuel b = hash_auxF fuel (Buffer.mk (Buffer.level b) none none) ∧
        bufferHashF fuel b = bufferHashF fuel (Buffer.mk (Buffer.level b) none none)) ∧
    bufferHashF 25
        (Buffer.mk 2 none (some (List.replicate 128 (Buffer.mk 1 none none)))) =
      bufferHashF 25 (Buffer.mk 2 none none) := by
  constructor
  · intro b fuel hw hz hf
    cases hz with
    | empty l => exact ⟨rfl, rfl⟩
    | leafZ data hdata =>
      subst hdata
      match fuel, hf with
      | fuel + 1, hf =>
        have haux : hash_auxF (fuel + 1) (Buffer.mk 0 (some (List.replicate 1024 0)) none) =
            some (Packed.mk D0 32 5) := by
          simp only [hash_auxF, if_true]
          rw [k1024]
          exact hash_buf_zeros 5 0 fuel (by omega) (by omega)
        have hempty : hash_auxF (fuel + 1) (Buffer.mk 0 none none) =
            some (Packed.mk D0 32 5) := by
          simp only [hash_auxF, if_true]
          rw [k1024]
          exact zero_packed_complete 5 fuel (by omega)
        refine ⟨?_, ?_⟩
        · show hash_auxF (fuel + 1) (Buffer.mk 0 (some (List.replicate 1024 0)) none) =
            hash_auxF (fuel + 1) (Buffer.mk 0 none none)
          rw [haux, hempty]
        · show (hash_auxF (fuel + 1)
                (Buffer.mk 0 (some (List.replicate 1024 0)) none)).map Packed.hash =
              (hash_auxF (fuel + 1) (Buffer.mk 0 none none)).map Packed.hash
          rw [haux, hempty]
    | nodeZ l kids hkids =>
      match fuel, hf with
      | fuel + 1, _ => exact ⟨rfl, rfl⟩
  · rfl

theorem C7_zero_region_equiv_witness :
    hash_auxF 8 (Buffer.mk 0 (some (List.replicate 1024 0)) none) =
        hash_auxF 8 (Buffer.mk 0 none none) ∧
    bufferHashF 8 (Buffer.mk 0 (some (List.replicate 1024 0)) none) =
        bufferHashF 8 (Buffer.mk 0 none none) :=
  C7_zero_region_equiv.1 (Buffer.mk 0 (some (List.replicate 1024 0)) none) 8
    (Wf.leafW (List.replicate 1024 0) (List.length_replicate 1024 0))
    (AllZero.leafZ (List.replicate 1024 0) rfl)
    (by show 7 * 0 + 8 ≤ 8; omega)

/-- C9 counterexample: the claim states that every call with a size violating
the `32 * 2^k` precondition fails fatally and never returns a digest.  But
`zero_hash(65)` — 65 is not of the form `32 * 2^k` — silently returns the
digest `combine(D0, D0)` (the 64-byte zero hash), because `65 / 2 = 32` hits
the base case. -/
theorem C9_zero_hash_65_returns :
    (¬ ∃ k, (65 : Nat) = 32 * 2 ^ k) ∧
    zero_hashF 2 65 = some (Digest.comb D0 D0) := by
  constructor
  · rintro ⟨k, hk⟩
    have h32 : (32 : Nat) ∣ 65 := ⟨2 ^ k, hk⟩
    omega
  · decide

/-- C9 amended: a precondition-violating size whose repeated halving never
hits 32 exactly makes `zero_hash` and `hash_buf` diverge — they never return
a digest at any recursion depth (so no wrong digest is produced); but a
violating size whose halving orbit does hit 32 (such as 65, see the
counterexample) silently yields a digest instead of aborting. -/
theorem C9_divergence_off_orbit :
    (∀ sz, (∀ j, sz / 2 ^ j ≠ 32) → ∀ fuel, zero_hashF fuel sz = none) ∧
    (∀ sz buf offset, (∀ j, sz / 2 ^ j ≠ 32) → ∀ fuel,
        hash_bufF fuel buf offset sz = none) := by
  have hhalf : ∀ sz : Nat, (∀ j, sz / 2 ^ j ≠ 32) → ∀ j, (sz / 2) / 2 ^ j ≠ 32 := by
    intro sz h j
    rw [Nat.div_div_eq_div_mul]
    have hp : (2 : Nat) * 2 ^ j = 2 ^ (j + 1) := (pow_succ' 2 j).symm
    rw [hp]
    exact h (j + 1)
  have hzh : ∀ fuel sz, (∀ j, sz / 2 ^ j ≠ 32) → zero_hashF fuel sz = none := by
    intro fuel
    induction fuel with
    | zero => intro sz _; rfl
    | succ fuel ih =>
      intro sz h
      have h0 : sz ≠ 32 := by simpa using h 0
      simp only [zero_hashF, if_neg h0, ih (sz / 2) (hhalf sz h)]
  refine ⟨fun sz h fuel => hzh fuel sz h, ?_⟩
  intro sz buf offset h fuel
  induction fuel generalizing sz buf offset with
  | zero => rfl
  | succ fuel ih =>
    have h0 : sz ≠ 32 := by simpa using h 0
    simp only [hash_bufF, if_neg h0, ih (sz / 2) buf offset (hhalf sz h)]

theorem C9_divergence_off_orbit_witness :
    zero_hashF 5 33 = none ∧ hash_bufF 5 [] 0 33 = none := by
  have h33 : ∀ j, (33 : Nat) / 2 ^ j ≠ 32 := by
    intro j
    rcases j with _ | j
    · decide
    · have hd : (0 : Nat) < 2 ^ (j + 1) := by positivity
      have h2 : (2 : Nat) ≤ 2 ^ (j + 1) := by
        calc (2 : Nat) = 2 ^ 1 := rfl
        _ ≤ 2 ^ (j + 1) := Nat.pow_le_pow_right (by omega) (by omega)
      have hlt : (33 : Nat) / 2 ^ (j + 1) < 32 := by
        rw [Nat.div_lt_iff_lt_mul hd]
        omega
      omega
  exact ⟨C9_divergence_off_orbit.1 33 h33 5,
    C9_divergence_off_orbit.2 33 [] 0 h33 5⟩

/-! ### Agreement of the `int`-faithful model with the unbounded model on
representable sizes, and its divergence beyond them -/

theorem wrap32_of_lt (z : Int) (h0 : 0 ≤ z) (h1 : z < 2 ^ 31) : wrap32 z = z := by
  unfold wrap32
  rw [Int.emod_eq_of_lt (by omega) (by omega)]
  omega

theorem tdiv_two_nonpos (a : Int) (h : a ≤ 0) : Int.tdiv a 2 ≤ 0 := by
  obtain ⟨n, rfl⟩ : ∃ n : ℕ, a = -(n : Int) := ⟨(-a).toNat, by omega⟩
  rw [Int.neg_tdiv, show (2 : Int) = ((2 : Nat) : Int) from rfl, ← Int.ofNat_tdiv]
  omega

theorem tdiv_ofNat (m n : Nat) :
    Int.tdiv (Int.ofNat m) (Int.ofNat n) = Int.ofNat (m / n) :=
  (Int.ofNat_tdiv m n).symm

theorem ofNat_lt_pow31 (n : Nat) (h : n < 2 ^ 31) : Int.ofNat n < 2 ^ 31 := by
  have h2 : (Int.ofNat n : Int) < Int.ofNat (2 ^ 31) := Int.ofNat_lt.mpr h
  simpa using h2

theorem wrap32_ofNat (n : Nat) (h : n < 2 ^ 31) :
    wrap32 (Int.ofNat n) = Int.ofNat n :=
  wrap32_of_lt _ (Int.ofNat_nonneg _) (ofNat_lt_pow31 n h)

theorem zero_hash32_agree (fuel : Nat) :
    ∀ sz : Nat, zero_hash32 fuel (Int.ofNat sz) = zero_hashF fuel sz := by
  induction fuel with
  | zero => intro sz; rfl
  | succ fuel ih =>
    intro sz
    by_cases hsz : sz = 32
    · subst hsz
      rfl
    · have hsz2 : Int.ofNat sz ≠ 32 := by
        simpa using fun h => hsz (by exact_mod_cast h)
      simp only [zero_hash32, zero_hashF, if_neg hsz, if_neg hsz2,
        show Int.tdiv (Int.ofNat sz) 2 = Int.ofNat (sz / 2) from tdiv_ofNat sz 2,
        ih (sz / 2)]

theorem zero_packed32_agree (fuel : Nat) :
    ∀ sz : Nat, zero_packed32 fuel (Int.ofNat sz) = zero_packedF fuel sz := by
  induction fuel with
  | zero => intro sz; rfl
  | succ fuel ih =>
    intro sz
    by_cases hsz : sz = 32
    · subst hsz
      show (match zero_hash32 fuel 32 with
        | none => none
        | some h => some (normal h 32)) = zero_packedF (fuel + 1) 32
      rw [show (32 : Int) = Int.ofNat 32 from rfl, zero_hash32_agree fuel 32]
      rfl
    · have hsz2 : Int.ofNat sz ≠ 32 := by
        simpa using fun h => hsz (by exact_mod_cast h)
      simp only [zero_packed32, zero_packedF, if_neg hsz, if_neg hsz2,
        show Int.tdiv (Int.ofNat sz) 2 = Int.ofNat (sz / 2) from tdiv_ofNat sz 2,
        ih (sz / 2)]

theorem unpack_loop32_agree (fuel : Nat) :
    ∀ n d (sz : Nat), sz * 2 ^ n < 2 ^ 31 →
      unpack_loop32 fuel n d (Int.ofNat sz) = unpack_loopF fuel n d sz := by
  intro n
  induction n with
  | zero => intro d sz _; rfl
  | succ n ih =>
    intro d sz hsz
    have h2n : 2 ≤ 2 ^ (n + 1) := Nat.one_lt_two_pow_iff.mpr (by omega)
    have hs2 : sz * 2 < 2 ^ 31 := by
      have hmono : sz * 2 ≤ sz * 2 ^ (n + 1) := Nat.mul_le_mul_left sz h2n
      omega
    have hmul : Int.ofNat sz * 2 = Int.ofNat (sz * 2) := rfl
    have hwrap : wrap32 (Int.ofNat sz * 2) = Int.ofNat (sz * 2) := by
      rw [hmul]
      exact wrap32_ofNat (sz * 2) hs2
    have hrec : (sz * 2) * 2 ^ n < 2 ^ 31 := by
      have he : sz * 2 * 2 ^ n = sz * 2 ^ (n + 1) := by rw [pow_succ]; ring
      omega
    simp only [unpack_loop32, unpack_loopF, zero_hash32_agree fuel sz, hwrap]
    cases hz : zero_hashF fuel sz with
    | none => rfl
    | some z => exact ih (Digest.comb d z) (sz * 2) hrec

theorem unpack32_agree (fuel : Nat) (p : Packed)
    (h : p.size * 2 ^ p.packed < 2 ^ 31) : unpack32 fuel p = unpackF fuel p :=
  unpack_loop32_agree fuel p.packed p.hash p.size h

theorem hash_buf32_agree (fuel : Nat) :
    ∀ k (offset : Nat) buf, k ≤ 25 →
      hash_buf32 fuel buf (Int.ofNat offset) (Int.ofNat (32 * 2 ^ k)) =
        hash_bufF fuel buf offset (32 * 2 ^ k) := by
  induction fuel with
  | zero => intro k offset buf _; rfl
  | succ fuel ih =>
    intro k offset buf hk
    rcases Nat.eq_zero_or_pos k with hk0 | hk0
    · subst hk0
      simp [hash_buf32, hash_bufF]
    · obtain ⟨k, rfl⟩ : ∃ m, k = m + 1 := ⟨k - 1, by omega⟩
      have hne : 32 * 2 ^ (k + 1) ≠ 32 := by
        simpa using (size_eq_base_iff (k + 1)).not.mpr (by omega)
      have hne2 : Int.ofNat (32 * 2 ^ (k + 1)) ≠ 32 :=
        fun h => hne (Int.ofNat_inj.mp h)
      have hdiv : Int.tdiv (Int.ofNat (32 * 2 ^ (k + 1))) 2 = Int.ofNat (32 * 2 ^ k) := by
        have h := tdiv_ofNat (32 * 2 ^ (k + 1)) 2
        rw [size_succ_div_two] at h
        exact h
      have hoff : Int.ofNat offset + Int.ofNat (32 * 2 ^ k) =
          Int.ofNat (offset + 32 * 2 ^ k) := rfl
      simp only [hash_buf32, hash_bufF, if_neg hne, if_neg hne2, hdiv,
        size_succ_div_two, hoff, ih k offset buf (by omega),
        ih k (offset + 32 * 2 ^ k) buf (by omega)]
      cases he1 : hash_bufF fuel buf offset (32 * 2 ^ k) with
      | none => rfl
      | some h1 =>
        cases he2 : hash_bufF fuel buf (offset + 32 * 2 ^ k) (32 * 2 ^ k) with
        | none => rfl
        | some h2 =>
          simp only
          by_cases hz : is_zero_hash h2 = true
          · rw [if_pos hz, if_pos hz]
          · rw [if_neg hz, if_neg hz]
            obtain ⟨a1, hsz1, hak1, _, _, _⟩ :=
              hash_buf_sound fuel k offset buf h1 he1
            obtain ⟨a2, hsz2, hak2, _, _, _⟩ :=
              hash_buf_sound fuel k (offset + 32 * 2 ^ k) buf h2 he2
            have hb1 : h1.size * 2 ^ h1.packed < 2 ^ 31 := by
              have he : h1.size * 2 ^ h1.packed = 32 * 2 ^ k := by
                rw [hsz1, Nat.mul_assoc, ← pow_add, hak1]
              rw [he]
              have hexp : (2 : Nat) ^ k ≤ 2 ^ 24 :=
                Nat.pow_le_pow_right (by omega) (by omega)
              omega
            have hb2 : h2.size * 2 ^ h2.packed < 2 ^ 31 := by
              have he : h2.size * 2 ^ h2.packed = 32 * 2 ^ k := by
                rw [hsz2, Nat.mul_assoc, ← pow_add, hak2]
              rw [he]
              have hexp : (2 : Nat) ^ k ≤ 2 ^ 24 :=
                Nat.pow_le_pow_right (by omega) (by omega)
              omega
            rw [unpack32_agree fuel h1 hb1, unpack32_agree fuel h2 hb2]
            cases unpackF fuel h1 with
            | none => rfl
            | some u1 =>
              cases unpackF fuel h2 with
              | none => rfl
              | some u2 => rfl

theorem hash_aux32_agree (fuel : Nat) (b : Buffer) (hw : Wf b)
    (hl : Buffer.level b ≤ 2) : hash_aux32 fuel b = hash_auxF fuel b := by
  match fuel with
  | 0 => rfl
  | fuel + 1 =>
    cases hw with
    | empty l =>
      have hl2 : l ≤ 2 := hl
      interval_cases l
      · exact zero_packed32_agree fuel 1024
      · show zero_packed32 fuel (wrap32 (Int.ofNat (calc_len 1))) =
          zero_packedF fuel (calc_len 1)
        rw [wrap32_ofNat (calc_len 1) (by decide)]
        exact zero_packed32_agree fuel (calc_len 1)
      · show zero_packed32 fuel (wrap32 (Int.ofNat (calc_len 2))) =
          zero_packedF fuel (calc_len 2)
        rw [wrap32_ofNat (calc_len 2) (by decide)]
        exact zero_packed32_agree fuel (calc_len 2)
    | leafW data hlen =>
      exact hash_buf32_agree fuel 5 0 data (by omega)
    | nodeW l kids hlen hkids hlev =>
      have hl2 : l + 1 ≤ 2 := hl
      have hl3 : l ≤ 1 := by omega
      interval_cases l
      · show zero_packed32 fuel (wrap32 (Int.ofNat (calc_len 1))) =
          zero_packedF fuel (calc_len 1)
        rw [wrap32_ofNat (calc_len 1) (by decide)]
        exact zero_packed32_agree fuel (calc_len 1)
      · show zero_packed32 fuel (wrap32 (Int.ofNat (calc_len 2))) =
          zero_packedF fuel (calc_len 2)
        rw [wrap32_ofNat (calc_len 2) (by decide)]
        exact zero_packed32_agree fuel (calc_len 2)

theorem hash_node32_agree (fuel : Nat) :
    ∀ j (offset : Nat) bufs (l : Nat), Wf (bufs.getD 0 default) →
      Buffer.level (bufs.getD 0 default) = l → l ≤ 2 → j + (5 + 7 * l) ≤ 25 →
      hash_node32 fuel bufs (Int.ofNat offset) (Int.ofNat (2 ^ j))
          (Int.ofNat (32 * 2 ^ (j + (5 + 7 * l)))) =
        hash_nodeF fuel bufs offset (2 ^ j) (32 * 2 ^ (j + (5 + 7 * l))) := by
  induction fuel with
  | zero => intro j offset bufs l _ _ _ _; rfl
  | succ fuel ih =>
    intro j offset bufs l hw hlv hl hj
    rcases Nat.eq_zero_or_pos j with hj0 | hj0
    · subst hj0
      show hash_aux32 fuel (bufs.getD 0 default) =
        hash_auxF fuel (bufs.getD 0 default)
      exact hash_aux32_agree fuel (bufs.getD 0 default) hw (by omega)
    · obtain ⟨j, rfl⟩ : ∃ m, j = m + 1 := ⟨j - 1, by omega⟩
      have hne : (2 : Nat) ^ (j + 1) ≠ 1 := pow_ne_one j
      have hne2 : Int.ofNat (2 ^ (j + 1)) ≠ 1 :=
        fun h => pow_ne_one j (Int.ofNat_inj.mp h)
      have hexp : j + 1 + (5 + 7 * l) = (j + (5 + 7 * l)) + 1 := by omega
      have hdivlen : Int.tdiv (Int.ofNat (2 ^ (j + 1))) 2 = Int.ofNat (2 ^ j) := by
        have h := tdiv_ofNat (2 ^ (j + 1)) 2
        rw [pow_succ_div_two] at h
        exact h
      have hdivsz : Int.tdiv (Int.ofNat (32 * 2 ^ (j + 1 + (5 + 7 * l)))) 2 =
          Int.ofNat (32 * 2 ^ (j + (5 + 7 * l))) := by
        have h := tdiv_ofNat (32 * 2 ^ (j + 1 + (5 + 7 * l))) 2
        rw [hexp, size_succ_div_two] at h
        rw [hexp]
        exact h
      have hoff : Int.ofNat offset + Int.ofNat (2 ^ j) =
          Int.ofNat (offset + 2 ^ j) := rfl
      have hszdiv : 32 * 2 ^ (j + 1 + (5 + 7 * l)) / 2 = 32 * 2 ^ (j + (5 + 7 * l)) := by
        rw [hexp, size_succ_div_two]
      simp only [hash_node32, hash_nodeF, if_neg hne, if_neg hne2, hdivlen,
        hdivsz, pow_succ_div_two, hszdiv, hoff, ih j offset bufs l hw hlv hl (by omega),
        ih j (offset + 2 ^ j) bufs l hw hlv hl (by omega)]
      cases he1 : hash_nodeF fuel bufs offset (2 ^ j) (32 * 2 ^ (j + (5 + 7 * l))) with
      | none => rfl
      | some h1 =>
        cases he2 : hash_nodeF fuel bufs (offset + 2 ^ j) (2 ^ j)
            (32 * 2 ^ (j + (5 + 7 * l))) with
        | none => rfl
        | some h2 =>
          simp only
          by_cases hz : is_zero_hash h2 = true
          · rw [if_pos hz, if_pos hz]
          · rw [if_neg hz, if_neg hz]
            obtain ⟨a1, hsz1, hak1, _, _, _⟩ :=
              hash_node_sound fuel j offset bufs h1 l hw hlv he1
            obtain ⟨a2, hsz2, hak2, _, _, _⟩ :=
              hash_node_sound fuel j (offset + 2 ^ j) bufs h2 l hw hlv he2
            have hb1 : h1.size * 2 ^ h1.packed < 2 ^ 31 := by
              have he : h1.size * 2 ^ h1.packed = 32 * 2 ^ (j + (5 + 7 * l)) := by
                rw [hsz1, Nat.mul_assoc, ← pow_add, hak1]
              rw [he]
              have hb : (2 : Nat) ^ (j + (5 + 7 * l)) ≤ 2 ^ 24 :=
                Nat.pow_le_pow_right (by omega) (by omega)
              omega
            have hb2 : h2.size * 2 ^ h2.packed < 2 ^ 31 := by
              have he : h2.size * 2 ^ h2.packed = 32 * 2 ^ (j + (5 + 7 * l)) := by
                rw [hsz2, Nat.mul_assoc, ← pow_add, hak2]
              rw [he]
              have hb : (2 : Nat) ^ (j + (5 + 7 * l)) ≤ 2 ^ 24 :=
                Nat.pow_le_pow_right (by omega) (by omega)
              omega
            rw [unpack32_agree fuel h1 hb1, unpack32_agree fuel h2 hb2]
            cases unpackF fuel h1 with
            | none => rfl
            | some u1 =>
              cases unpackF fuel h2 with
              | none => rfl
              | some u2 => rfl

/-- With the C++ `int` size, a non-positive size never reaches the base case
32 under truncating halving: `zero_packed` never returns, at any depth. -/
theorem zero_packed32_nonpos (fuel : Nat) :
    ∀ sz : Int, sz ≤ 0 → zero_packed32 fuel sz = none := by
  induction fuel with
  | zero => intro sz _; rfl
  | succ fuel ih =>
    intro sz hsz
    have hne : sz ≠ 32 := by omega
    simp only [zero_packed32, if_neg hne,
      ih (Int.tdiv sz 2) (tdiv_two_nonpos sz hsz)]

theorem calc_len_pow (l : Nat) : calc_len l = 2 ^ (10 + 7 * l) := by
  rw [calc_len_eq, show (32 : Nat) = 2 ^ 5 from rfl, ← pow_add]
  congr 1
  omega

/-- Narrowing `calc_len(level)` to the 32-bit `int` parameter yields a
non-positive value for every `level ≥ 3`: `-2^31` at level 3, and 0 at every
level ≥ 4 (where `2^32` divides the extent). -/
theorem wrap32_calc_len_nonpos (l : Nat) (hl : 3 ≤ l) :
    wrap32 (Int.ofNat (calc_len l)) ≤ 0 := by
  rcases Nat.lt_or_ge l 4 with h4 | h4
  · have hl3 : l = 3 := by omega
    subst hl3
    decide
  · have hsplit : calc_len l = 2 ^ 32 * 2 ^ (7 * l - 22) := by
      rw [calc_len_pow, ← pow_add]
      congr 1
      omega
    have hz : Int.ofNat (calc_len l) =
        Int.ofNat (2 ^ (7 * l - 22)) * 2 ^ 32 := by
      rw [hsplit,
        show Int.ofNat (2 ^ 32 * 2 ^ (7 * l - 22)) =
          Int.ofNat (2 ^ 32) * Int.ofNat (2 ^ (7 * l - 22)) from rfl,
        show (Int.ofNat (2 ^ 32) : Int) = 2 ^ 32 by decide]
      ring
    unfold wrap32
    rw [hz, Int.add_comm, Int.add_mul_emod_self]
    decide

/-- On every well-formed Buffer of level ≥ 3, the `int`-faithful `hash_aux`
never returns: the wrapped size is non-positive and `zero_packed` diverges. -/
theorem hash_aux32_diverges (b : Buffer) (hw : Wf b) (hl : 3 ≤ Buffer.level b) :
    ∀ fuel, hash_aux32 fuel b = none := by
  intro fuel
  match fuel with
  | 0 => rfl
  | fuel + 1 =>
    cases hw with
    | empty l =>
      have hl2 : 3 ≤ l := hl
      obtain ⟨m, rfl⟩ : ∃ m, l = m + 1 := ⟨l - 1, by omega⟩
      show zero_packed32 fuel (wrap32 (Int.ofNat (calc_len (m + 1)))) = none
      exact zero_packed32_nonpos fuel _ (wrap32_calc_len_nonpos (m + 1) hl2)
    | leafW data hlen =>
      exact absurd (show (3 : Nat) ≤ 0 from hl) (by omega)
    | nodeW l kids hlen hkids hlev =>
      have hl2 : 3 ≤ l + 1 := hl
      show zero_packed32 fuel (wrap32 (Int.ofNat (calc_len (l + 1)))) = none
      exact zero_packed32_nonpos fuel _ (wrap32_calc_len_nonpos (l + 1) hl2)

/-- C10 counterexample: the claim asserts that `commitment()` terminates for
every well-formed Buffer (any level ≥ 0).  The size parameters are C++ `int`;
narrowing `calc_len(3) = 2^31 > INT_MAX` wraps to `-2^31`, so on the
well-formed Empty level-3 Buffer the halving recursion of `zero_packed` never
reaches 32 and `hash_aux` / `Buffer::hash` return no value at any recursion
depth. -/
theorem C10_level3_never_returns :
    Wf (Buffer.mk 3 none none) ∧
    wrap32 (Int.ofNat (calc_len 3)) = -(2 ^ 31) ∧
    (∀ fuel, hash_aux32 fuel (Buffer.mk 3 none none) = none) ∧
    (∀ fuel, bufferHash32 fuel (Buffer.mk 3 none none) = none) := by
  have hdiv : ∀ fuel, hash_aux32 fuel (Buffer.mk 3 none none) = none :=
    hash_aux32_diverges (Buffer.mk 3 none none) (Wf.empty 3) (by decide)
  refine ⟨Wf.empty 3, by decide, hdiv, ?_⟩
  intro fuel
  unfold bufferHash32
  rw [hdiv fuel]
  rfl

/-- C10 (amended): under the C++ `int` size type, `zero_hash`, `zero_packed`,
`hash_buf` and `hash_node` are total for the precondition sizes representable
in `int` (window exponent ≤ 25; `hash_buf` within its spec range ≤ 1024;
`hash_node` whenever `count * extent(child level)` is representable), and
`commitment()` terminates on every well-formed Buffer of level ≤ 2 — but on
every well-formed Buffer of level ≥ 3 the narrowed size parameter wraps to a
non-positive value and `hash_aux` / `Buffer::hash` never return. -/
theorem C10_termination_within_int :
    (∀ k fuel, k ≤ 25 → k + 1 ≤ fuel →
        zero_hash32 fuel (Int.ofNat (32 * 2 ^ k)) = some (zhash k)) ∧
    (∀ k fuel, k ≤ 25 → k + 2 ≤ fuel →
        zero_packed32 fuel (Int.ofNat (32 * 2 ^ k)) = some (Packed.mk D0 32 k)) ∧
    (∀ k offset buf fuel, k ≤ 5 → k + 1 ≤ fuel →
        ∃ p, hash_buf32 fuel buf (Int.ofNat offset) (Int.ofNat (32 * 2 ^ k)) = some p) ∧
    (∀ j offset bufs fuel l, Wf (bufs.getD 0 default) →
        Buffer.level (bufs.getD 0 default) = l → l ≤ 2 → j + (5 + 7 * l) ≤ 25 →
        j + 7 * l + 9 ≤ fuel →
        ∃ p, hash_node32 fuel bufs (Int.ofNat offset) (Int.ofNat (2 ^ j))
          (Int.ofNat (32 * 2 ^ (j + (5 + 7 * l)))) = some p) ∧
    (∀ b fuel, Wf b → Buffer.level b ≤ 2 → 7 * Buffer.level b + 8 ≤ fuel →
        (∃ p, hash_aux32 fuel b = some p) ∧ ∃ d, bufferHash32 fuel b = some d) ∧
    (∀ b fuel, Wf b → 3 ≤ Buffer.level b →
        hash_aux32 fuel b = none ∧ bufferHash32 fuel b = none) := by
  refine ⟨?_, ?_, ?_, ?_, ?_, ?_⟩
  · intro k fuel _ hf
    rw [zero_hash32_agree]
    exact zero_hash_complete k fuel hf
  · intro k fuel _ hf
    rw [zero_packed32_agree]
    exact zero_packed_complete k fuel hf
  · intro k offset buf fuel hk hf
    rw [hash_buf32_agree fuel k offset buf (by omega)]
    exact hash_buf_complete k offset buf fuel hf
  · intro j offset bufs fuel l hw hlv hl hj hf
    rw [hash_node32_agree fuel j offset bufs l hw hlv hl hj]
    exact hash_node_complete j offset bufs fuel l hw hlv hf
  · intro b fuel hw hl hf
    obtain ⟨p, hp⟩ := hash_aux_complete b fuel hw hf
    have hag := hash_aux32_agree fuel b hw hl
    refine ⟨⟨p, by rw [hag]; exact hp⟩, p.hash, ?_⟩
    unfold bufferHash32
    rw [hag, hp]
    rfl
  · intro b fuel hw hl
    have hd := hash_aux32_diverges b hw hl fuel
    refine ⟨hd, ?_⟩
    unfold bufferHash32
    rw [hd]
    rfl

theorem C10_termination_within_int_witness :
    (∃ p, hash_aux32 8 (Buffer.mk 0 none none) = some p) ∧
    ∃ d, bufferHash32 8 (Buffer.mk 0 none none) = some d :=
  C10_termination_within_int.2.2.2.2.1 (Buffer.mk 0 none none) 8 (Wf.empty 0)
    (by decide) (by show 7 * 0 + 8 ≤ 8; omega)
